import Mathlib

/-!
Verification of the symlink-finder traversal and resolution engine
(`src/main.rs`) against its specification.

Strings from the source (file names, CLI glob strings, path components)
are embedded as `List Char`; relative paths are lists of name segments
(the walk root `.` is the empty segment list).  The third-party walker
(`ignore::WalkBuilder`, configured in `main`) is embedded with its
documented semantics: `hidden(true)` means hidden entries are skipped,
`max_depth(Some(d))` yields entries of depth at most `d` with the root at
depth 0, `filter_entry` prunes a directory together with its subtree, and
override globs use gitignore syntax with the meaning of `!` inverted
(a pattern starting with `!` is an ignore pattern, a bare pattern is a
whitelist pattern; the last matching pattern wins).  Glob patterns are
modelled literally (a pattern matches an entry whose base name or whose
root-relative path equals it); wildcard syntax is not needed by any claim.
The gitignore / ignore-file / same-file-system policy layers of the
builder are switched off in every claim considered here and are not
modelled.  Filesystem resolution (`fs::canonicalize`, `fs::metadata`
identity) is embedded as an abstract resolver record.
-/

/-- Characters of one file-name / CLI string (Rust `String` / `OsStr`). -/
abbrev Seg : Type := List Char

/-- Relative path: the chain of name segments below the walk root. -/
abbrev FsPath : Type := List Seg

/-- Convenience conversion from a Lean string literal. -/
def strOf (s : String) : Seg := s.toList

/-- File-type classification of a walked entry, as reported by the walker
with `follow_links(false)`: a symbolic link is classified `symlink`
(from `symlink_metadata`), never as `file` or `dir`. -/
inductive FType : Type where
  | file
  | dir
  | symlink
  | other
deriving DecidableEq, Repr

/-- One entry produced by the traversal: its root-relative path, its type
tag and its depth (root = 0). -/
structure Entry : Type where
  path : FsPath
  ftype : FType
  depth : Nat
deriving DecidableEq, Repr

mutual
/-- Filesystem tree node: name, type tag, children.  Children are only
meaningful for directories; the walker never descends through a node whose
tag is not `dir` (it does not follow symlinks). -/
inductive FSNode : Type where
  | node (name : Seg) (ftype : FType) (children : FSForest)
/-- Forest of sibling filesystem nodes. -/
inductive FSForest : Type where
  | nil
  | cons (hd : FSNode) (tl : FSForest)
end

/-- Name of a node. -/
def FSNode.nameOf : FSNode → Seg
  | .node n _ _ => n

/-- Type tag of a node. -/
def FSNode.typeOf : FSNode → FType
  | .node _ t _ => t

/-- Children of a node. -/
def FSNode.kidsOf : FSNode → FSForest
  | .node _ _ c => c

/-- Forest built from a list of nodes, for writing fixtures. -/
def forestOf : List FSNode → FSForest
  | [] => .nil
  | n :: rest => .cons n (forestOf rest)

/-- HEAVY_DIRS constant from `main.rs`: directory base names pruned by the
`filter_entry` predicate unless `--include-heavy` is given. -/
def heavyDirs : List Seg :=
  [strOf "node_modules", strOf ".cache", strOf "target", strOf "build",
   strOf "dist", strOf "out", strOf ".git", strOf ".venv", strOf "venv"]

/-- Hidden-name convention used by the walker: base name begins with a dot. -/
def hiddenName : Seg → Bool
  | '.' :: _ => true
  | _ => false

/-- Test for a leading `!`, as `g.starts_with('!')` in `main.rs`. -/
def startsWithBang : Seg → Bool
  | '!' :: _ => true
  | _ => false

/-- Pattern transformation applied by `main.rs` to each user `--ignore`
glob before handing it to the override builder: a glob already starting
with `!` is kept, any other glob gets `!` prepended. -/
def mkPat (g : Seg) : Seg :=
  if startsWithBang g then g else '!' :: g

/-- One compiled override glob: the glob text and its polarity.  In the
override matcher a pattern WITHOUT a leading `!` is a whitelist pattern
and a pattern WITH a leading `!` is an ignore pattern. -/
structure OvGlob : Type where
  pat : Seg
  whitelist : Bool
deriving DecidableEq, Repr

/-- Compilation of one override pattern string (`OverrideBuilder::add`):
strip a leading `!` and record ignore polarity, otherwise whitelist. -/
def ovAdd : Seg → OvGlob
  | '!' :: r => ⟨r, false⟩
  | s => ⟨s, true⟩

/-- Root-relative path rendered with `/` separators, for glob matching. -/
def relJoin : FsPath → Seg
  | [] => []
  | [s] => s
  | s :: rest => s ++ '/' :: relJoin rest

/-- Literal glob match: the pattern equals the base name (a pattern with
no separator matches at any level) or equals the full relative path. -/
def ovMatchOne (g : OvGlob) (name : Seg) (rel : FsPath) : Bool :=
  g.pat == name || g.pat == relJoin rel

/-- Last matching override glob (gitignore: the last match wins). -/
def lastMatching (gs : List OvGlob) (name : Seg) (rel : FsPath) : Option OvGlob :=
  (gs.filter (fun g => ovMatchOne g name rel)).getLast?

/-- Override decision for one entry: `some true` = whitelisted,
`some false` = ignored, `none` = no decision.  A non-directory entry that
matches nothing while at least one whitelist glob exists is ignored
(override-matcher rule). -/
def ovDecision (gs : List OvGlob) (name : Seg) (rel : FsPath) (isDirE : Bool) : Option Bool :=
  match lastMatching gs name rel with
  | some g => some g.whitelist
  | none => if gs.any (fun g => g.whitelist) && !isDirE then some false else none

/-- Walker configuration distilled from the `WalkBuilder` calls in `main`:
`hiddenIgnore` is the boolean passed to `WalkBuilder::hidden` (true means
hidden entries are SKIPPED), `maxD` the `max_depth` bound, `filterHeavy`
whether the heavy-directory `filter_entry` predicate is installed, and
`ovGlobs` the compiled override globs. -/
structure WalkConfig : Type where
  hiddenIgnore : Bool
  maxD : Option Nat
  filterHeavy : Bool
  ovGlobs : List OvGlob
deriving DecidableEq, Repr

/-- Depth rule of the walker: an entry deeper than `max_depth` is skipped. -/
def depthPass (cfg : WalkConfig) (d : Nat) : Bool :=
  match cfg.maxD with
  | some m => decide (d ≤ m)
  | none => true

/-- Heavy-directory `filter_entry` predicate from `main.rs`: reject a
DIRECTORY whose base name is in `heavyDirs`; keep everything else. -/
def heavyPass (cfg : WalkConfig) (name : Seg) (ft : FType) : Bool :=
  !(cfg.filterHeavy && decide (ft = FType.dir) && decide (name ∈ heavyDirs))

/-- Hidden-file rule: skip a dot-name when `hiddenIgnore` is set. -/
def hiddenPass (cfg : WalkConfig) (name : Seg) : Bool :=
  !(cfg.hiddenIgnore && hiddenName name)

/-- Combined per-entry admission test of the walker: depth bound, the
heavy-directory filter, and the ignore chain (an override decision wins
over the hidden-file rule, which applies only when no override matched). -/
def allowed (cfg : WalkConfig) (name : Seg) (ft : FType) (rel : FsPath) (d : Nat) : Bool :=
  depthPass cfg d && heavyPass cfg name ft &&
    (match ovDecision cfg.ovGlobs name rel (decide (ft = FType.dir)) with
     | some b => b
     | none => hiddenPass cfg name)

mutual
/-- Entries yielded for a node already admitted (or for the root, which is
always yielded): the node itself, then — only for a directory — its
admitted descendants.  Symlinks are never descended (`follow_links(false)`). -/
def walkNode (cfg : WalkConfig) : FSNode → FsPath → Nat → List Entry
  | .node _ ft cs, path, d =>
    ⟨path, ft, d⟩ :: (if ft = FType.dir then walkForest cfg cs path d else [])
/-- Entries yielded for the children of a directory at path `parent`,
depth `d`: each child is admission-tested at depth `d + 1` and either
yielded-and-descended or pruned with its whole subtree. -/
def walkForest (cfg : WalkConfig) : FSForest → FsPath → Nat → List Entry
  | .nil, _, _ => []
  | .cons c rest, parent, d =>
    (if allowed cfg c.nameOf c.typeOf (parent ++ [c.nameOf]) (d + 1)
     then walkNode cfg c (parent ++ [c.nameOf]) (d + 1) else [])
      ++ walkForest cfg rest parent d
end

/-- Full traversal from the root (the root is yielded unconditionally at
depth 0, as the walker exempts depth 0 from every skip rule). -/
def walk (cfg : WalkConfig) (root : FSNode) : List Entry :=
  walkNode cfg root [] 0

example :
    walk ⟨false, none, false, []⟩
      (.node (strOf ".") FType.dir
        (forestOf [.node (strOf "a") FType.symlink (forestOf [])])) =
      [⟨[], FType.dir, 0⟩, ⟨[strOf "a"], FType.symlink, 1⟩] := by decide

/-- One step of the traversal callback in `main.rs`: accumulator is
(files counter, dirs counter, symlink entry buffer); `is_dir` increments
the dirs counter, otherwise `is_file` increments the files counter, and
independently `is_symlink` appends the path to the entry buffer. -/
def tallyStep (acc : Nat × Nat × List FsPath) (e : Entry) : Nat × Nat × List FsPath :=
  let counters : Nat × Nat :=
    if e.ftype = FType.dir then (acc.1, acc.2.1 + 1)
    else if e.ftype = FType.file then (acc.1 + 1, acc.2.1)
    else (acc.1, acc.2.1)
  let buf : List FsPath :=
    if e.ftype = FType.symlink then acc.2.2 ++ [e.path] else acc.2.2
  (counters.1, counters.2, buf)

/-- Counters and symlink entry buffer accumulated over the walked entries. -/
def tallies (es : List Entry) : Nat × Nat × List FsPath :=
  es.foldl tallyStep (0, 0, [])

/-- Number of walked entries classified as regular files. -/
def countFile (es : List Entry) : Nat :=
  (es.filter (fun e => decide (e.ftype = FType.file))).length

/-- Number of walked entries classified as directories. -/
def countDir (es : List Entry) : Nat :=
  (es.filter (fun e => decide (e.ftype = FType.dir))).length

/-- Paths of the walked entries classified as symlinks, in walk order. -/
def symPaths (es : List Entry) : List FsPath :=
  (es.filter (fun e => decide (e.ftype = FType.symlink))).map Entry.path

/-- Abstract filesystem resolver: `canonical` embeds `fs::canonicalize`
(`realpath` in `main.rs`; `none` = dangling link, permission error, or any
other resolution failure) and `inoOf` gives the device+inode identity of
an already-canonical path where the platform exposes one. -/
structure ResolveFS : Type where
  canonical : FsPath → Option FsPath
  inoOf : FsPath → Option (Nat × Nat)

/-- Identity returned by `fs::metadata(p)` (which follows every symlink):
the identity of the canonical form of `p`, failing when resolution fails. -/
def metaId (rfs : ResolveFS) (p : FsPath) : Option (Nat × Nat) :=
  (rfs.canonical p).bind rfs.inoOf

/-- Fast identity check from `main.rs` (Unix arm): read the candidate
metadata and compare device+inode against the target metadata `tm`;
any metadata failure yields `false` (`unwrap_or(false)`). -/
def fastCheck (rfs : ResolveFS) (tm : Nat × Nat) (p : FsPath) : Bool :=
  decide (metaId rfs p = some tm)

/-- Fallback check: fully canonicalize the candidate and compare for exact
equality against the canonical target; resolution failure is `false`
(`map_or(false, ..)`). -/
def slowCheck (rfs : ResolveFS) (tgt : FsPath) (p : FsPath) : Bool :=
  decide (rfs.canonical p = some tgt)

/-- Per-candidate match decision of the resolution pipeline: with target
metadata available, try the fast identity check and short-circuit on
success, otherwise fall back to canonicalization; without target metadata
only the fallback runs. -/
def isMatch (rfs : ResolveFS) (tgt : FsPath) (tm : Option (Nat × Nat)) (p : FsPath) : Bool :=
  match tm with
  | some t => if fastCheck rfs t p then true else slowCheck rfs tgt p
  | none => slowCheck rfs tgt p

/-- Boolean lexicographic comparison of lists from a strict comparison on
elements. -/
def lexLe {α : Type} [DecidableEq α] (lt : α → α → Bool) : List α → List α → Bool
  | [], _ => true
  | _ :: _, [] => false
  | a :: as, b :: bs => if a = b then lexLe lt as bs else lt a b

/-- Strict character comparison. -/
def charLt (a b : Char) : Bool := decide (a < b)

/-- Lexicographic order on name segments (byte-wise string comparison). -/
def segLe : Seg → Seg → Bool := lexLe charLt

/-- Strict segment comparison derived from `segLe`. -/
def segLt (a b : Seg) : Bool := !(segLe b a)

/-- Component-wise path comparison, as `Ord` on `PathBuf` used by
`Vec::sort` in `main.rs`. -/
def pathLe : FsPath → FsPath → Bool := lexLe segLt

/-- Path order as a proposition, for the sorting library. -/
def pLe (a b : FsPath) : Prop := pathLe a b = true

instance : DecidableRel pLe := fun a b => instDecidableEqBool (pathLe a b) true

/-- Sorting of the frozen match set (`matches.sort()`). -/
def sortPaths (l : List FsPath) : List FsPath := List.insertionSort pLe l

/-- Streamed side effects of the resolution loop: the one-time blank line
framing the results, and one announcement per match. -/
inductive REv : Type where
  | blank
  | announce (p : FsPath)
deriving DecidableEq, Repr

/-- Print traces of the streaming loop, one trace per matching candidate,
listed in the serialization order of the atomic `streamed_count.fetch_add`
and carrying the running counter value `n`: the matching candidate whose
fetch returned 0 prints the framing blank line and then its announcement —
in that order, since one worker issues both — while every later matching
candidate prints only its announcement; a non-matching candidate prints
nothing. -/
def candTraces (isM : FsPath → Bool) : List FsPath → Nat → List (List REv)
  | [], _ => []
  | p :: ps, n =>
    if isM p then
      ((if n = 0 then [REv.blank] else []) ++ [REv.announce p]) :: candTraces isM ps (n + 1)
    else candTraces isM ps n

/-- Observable console order of the streaming prints: an interleaving of
the per-candidate traces.  Each worker issues its own candidate's prints
in trace order, but nothing in `main.rs` synchronizes the prints of
different workers (the atomic counter orders only the fetches), so the
scheduler may at every moment pick any trace with a pending print
(`step`); `drop` retires an exhausted trace. -/
inductive Shuffle : List (List REv) → List REv → Prop where
  | nil : Shuffle [] []
  | drop {ts : List (List REv)} {evs : List REv} (i : Nat) :
      ts.get? i = some [] → Shuffle (ts.eraseIdx i) evs → Shuffle ts evs
  | step {ts : List (List REv)} {evs : List REv} (i : Nat) (e : REv) (rest : List REv) :
      ts.get? i = some (e :: rest) → Shuffle (ts.set i rest) evs → Shuffle ts (e :: evs)

/-- Command-line options of the program (`Opts` in `main.rs`), with clap
defaults.  `hidden` defaults to `true` and the `--hidden` flag SETS IT TO
FALSE (`ArgAction::SetFalse`).  The gitignore, ignore-file and filesystem
boundary switches are carried for completeness but are outside the
modelled policy layers (they stay at their defaults in every claim). -/
structure Opts : Type where
  target : FsPath
  hidden : Bool := true
  maxDepth : Option Nat := none
  json : Bool := false
  respectGitignore : Bool := false
  oneFilesystem : Bool := false
  ignores : List Seg := []
  includeHeavy : Bool := false
  noStream : Bool := false
deriving DecidableEq, Repr

/-- WalkBuilder configuration performed by `main`: `opts.hidden` is passed
STRAIGHT THROUGH to `WalkBuilder::hidden`, the heavy filter is installed
unless `--include-heavy`, and each `--ignore` glob is transformed by
`mkPat` and compiled by the override builder (only when any are given). -/
def mkWalkConfig (o : Opts) : WalkConfig :=
  { hiddenIgnore := o.hidden
    maxD := o.maxDepth
    filterHeavy := !o.includeHeavy
    ovGlobs := if o.ignores.isEmpty then [] else o.ignores.map (fun g => ovAdd (mkPat g)) }

/-- Whether match announcements stream as they are found
(`!opts.json && !opts.no_stream`). -/
def streamingAllowed (o : Opts) : Bool := !o.json && !o.noStream

/-- Final observable result of a successful run: sorted match set and the
traversal statistics. -/
structure RunResult : Type where
  matchSet : List FsPath
  fileCount : Nat
  dirCount : Nat
  symlinksScanned : Nat
deriving DecidableEq, Repr

/-- Error message attached by `main` when target canonicalization fails. -/
def msgFailResolve : Seg := strOf "Failed to resolve target"

/-- Whole-run pipeline of `main`: canonicalize the target (the only fatal
error), walk the tree, tally counters and the symlink entry buffer, read
the target metadata, filter the candidates through the match decision, and
report the sorted match set with the statistics. -/
def runMain (rfs : ResolveFS) (tree : FSNode) (o : Opts) : Except Seg RunResult :=
  match rfs.canonical o.target with
  | none => .error msgFailResolve
  | some tgt =>
    let es := walk (mkWalkConfig o) tree
    let t3 := tallies es
    let buf := t3.2.2
    let tm := metaId rfs tgt
    let ms := buf.filter (isMatch rfs tgt tm)
    .ok ⟨sortPaths ms, t3.1, t3.2.1, buf.length⟩

theorem lexLe_total {α : Type} [DecidableEq α] (lt : α → α → Bool)
    (htot : ∀ a b, a ≠ b → lt a b = true ∨ lt b a = true) :
    ∀ l1 l2 : List α, lexLe lt l1 l2 = true ∨ lexLe lt l2 l1 = true := by
  intro l1
  induction l1 with
  | nil => intro l2; left; cases l2 <;> rfl
  | cons a as ih =>
    intro l2
    cases l2 with
    | nil => right; rfl
    | cons b bs =>
      by_cases hab : a = b
      · subst hab
        simpa [lexLe] using ih bs
      · have hne : b ≠ a := fun h => hab h.symm
        rcases htot a b hab with h | h
        · left; simp [lexLe, hab, h]
        · right; simp [lexLe, hne, h]

theorem lexLe_antisymm {α : Type} [DecidableEq α] (lt : α → α → Bool)
    (hasym : ∀ a b, lt a b = true → lt b a = true → False) :
    ∀ l1 l2 : List α, lexLe lt l1 l2 = true → lexLe lt l2 l1 = true → l1 = l2 := by
  intro l1
  induction l1 with
  | nil =>
    intro l2 _ h21
    cases l2 with
    | nil => rfl
    | cons b bs => simp [lexLe] at h21
  | cons a as ih =>
    intro l2 h12 h21
    cases l2 with
    | nil => simp [lexLe] at h12
    | cons b bs =>
      by_cases hab : a = b
      · subst hab
        have := ih bs (by simpa [lexLe] using h12) (by simpa [lexLe] using h21)
        simp [this]
      · have hne : b ≠ a := fun h => hab h.symm
        have h1 : lt a b = true := by simpa [lexLe, hab] using h12
        have h2 : lt b a = true := by simpa [lexLe, hne] using h21
        exact absurd h2 (fun h2 => hasym a b h1 h2)

theorem lexLe_trans {α : Type} [DecidableEq α] (lt : α → α → Bool)
    (hasym : ∀ a b, lt a b = true → lt b a = true → False)
    (htrans : ∀ a b c, lt a b = true → lt b c = true → lt a c = true) :
    ∀ l1 l2 l3 : List α,
      lexLe lt l1 l2 = true → lexLe lt l2 l3 = true → lexLe lt l1 l3 = true := by
  intro l1
  induction l1 with
  | nil => intro l2 l3 _ _; cases l3 <;> rfl
  | cons a as ih =>
    intro l2 l3 h12 h23
    cases l2 with
    | nil => simp [lexLe] at h12
    | cons b bs =>
      cases l3 with
      | nil => simp [lexLe] at h23
      | cons c cs =>
        by_cases hab : a = b
        · subst hab
          by_cases hbc : a = c
          · subst hbc
            have := ih bs cs (by simpa [lexLe] using h12) (by simpa [lexLe] using h23)
            simpa [lexLe] using this
          · have h2 : lt a c = true := by simpa [lexLe, hbc] using h23
            simp [lexLe, hbc, h2]
        · have h1 : lt a b = true := by simpa [lexLe, hab] using h12
          by_cases hbc : b = c
          · subst hbc
            simp [lexLe, hab, h1]
          · have h2 : lt b c = true := by simpa [lexLe, hbc] using h23
            have hac2 : lt a c = true := htrans a b c h1 h2
            by_cases hac : a = c
            · subst hac
              exact absurd h2 (fun h => hasym a b h1 (by simpa using h))
            · simp [lexLe, hac, hac2]

theorem charLt_asym : ∀ a b : Char, charLt a b = true → charLt b a = true → False := by
  intro a b h1 h2
  exact absurd (lt_trans (of_decide_eq_true h1) (of_decide_eq_true h2)) (lt_irrefl a)

theorem charLt_tot : ∀ a b : Char, a ≠ b → charLt a b = true ∨ charLt b a = true := by
  intro a b h
  rcases lt_or_gt_of_ne h with h1 | h1
  · left; exact decide_eq_true h1
  · right; exact decide_eq_true h1

theorem charLt_trans : ∀ a b c : Char,
    charLt a b = true → charLt b c = true → charLt a c = true := by
  intro a b c h1 h2
  exact decide_eq_true (lt_trans (of_decide_eq_true h1) (of_decide_eq_true h2))

theorem segLe_total : ∀ a b : Seg, segLe a b = true ∨ segLe b a = true :=
  lexLe_total charLt charLt_tot

theorem segLe_antisymm : ∀ a b : Seg, segLe a b = true → segLe b a = true → a = b :=
  lexLe_antisymm charLt charLt_asym

theorem segLe_trans : ∀ a b c : Seg,
    segLe a b = true → segLe b c = true → segLe a c = true :=
  lexLe_trans charLt charLt_asym charLt_trans

theorem segLt_asym : ∀ a b : Seg, segLt a b = true → segLt b a = true → False := by
  intro a b h1 h2
  simp [segLt] at h1 h2
  rcases segLe_total a b with h | h
  · exact absurd h (by simp [h2])
  · exact absurd h (by simp [h1])

theorem segLt_tot : ∀ a b : Seg, a ≠ b → segLt a b = true ∨ segLt b a = true := by
  intro a b hne
  by_cases h1 : segLe b a = true
  · by_cases h2 : segLe a b = true
    · exact absurd (segLe_antisymm a b h2 h1) hne
    · right
      simp [segLt]
      exact Bool.eq_false_iff.mpr h2
  · left
    simp [segLt]
    exact Bool.eq_false_iff.mpr h1

theorem segLt_trans : ∀ a b c : Seg,
    segLt a b = true → segLt b c = true → segLt a c = true := by
  intro a b c h1 h2
  simp [segLt] at h1 h2 ⊢
  by_contra hca
  have hca2 : segLe c a = true := by
    cases h : segLe c a
    · exact absurd h hca
    · rfl
  have hab : segLe a b = true := by
    rcases segLe_total a b with h | h
    · exact h
    · exact absurd h (by simp [h1])
  have hcb : segLe c b = true := segLe_trans c a b hca2 hab
  exact absurd hcb (by simp [h2])

theorem pathLe_total : ∀ a b : FsPath, pathLe a b = true ∨ pathLe b a = true :=
  lexLe_total segLt segLt_tot

theorem pathLe_antisymm : ∀ a b : FsPath, pathLe a b = true → pathLe b a = true → a = b :=
  lexLe_antisymm segLt segLt_asym

theorem pathLe_trans : ∀ a b c : FsPath,
    pathLe a b = true → pathLe b c = true → pathLe a c = true :=
  lexLe_trans segLt segLt_asym segLt_trans

instance : IsTotal FsPath pLe := ⟨fun a b => pathLe_total a b⟩

instance : IsTrans FsPath pLe := ⟨fun a b c => pathLe_trans a b c⟩

instance : IsAntisymm FsPath pLe := ⟨fun a b => pathLe_antisymm a b⟩

theorem walkForest_depth0 (cfg : WalkConfig) (h : cfg.maxD = some 0) :
    ∀ (f : FSForest) (path : FsPath), walkForest cfg f path 0 = []
  | .nil, _ => rfl
  | .cons c rest, path => by
    have hal : allowed cfg c.nameOf c.typeOf (path ++ [c.nameOf]) 1 = false := by
      simp [allowed, depthPass, h]
    simp [walkForest, hal, walkForest_depth0 cfg h rest path]

/-- Walker configuration with every modelled filter disabled: hidden
entries admitted, no depth bound, heavy filter off (`--include-heavy`),
no override globs. -/
def openCfg : WalkConfig := ⟨false, none, false, []⟩

theorem allowed_openCfg (name : Seg) (ft : FType) (rel : FsPath) (d : Nat) :
    allowed openCfg name ft rel d = true := rfl

mutual
/-- Unfiltered enumeration of a subtree: every node below a directory. -/
def allNode : FSNode → FsPath → Nat → List Entry
  | .node _ ft cs, path, d =>
    ⟨path, ft, d⟩ :: (if ft = FType.dir then allForest cs path d else [])
/-- Unfiltered enumeration of a forest of siblings. -/
def allForest : FSForest → FsPath → Nat → List Entry
  | .nil, _, _ => []
  | .cons c rest, parent, d =>
    allNode c (parent ++ [c.nameOf]) (d + 1) ++ allForest rest parent d
end

/-- Unfiltered enumeration of the whole tree. -/
def allEntries (t : FSNode) : List Entry := allNode t [] 0

mutual
theorem walkNode_openCfg : ∀ (n : FSNode) (path : FsPath) (d : Nat),
    walkNode openCfg n path d = allNode n path d
  | .node nm ft cs, path, d => by
    simp [walkNode, allNode, walkForest_openCfg cs path d]
theorem walkForest_openCfg : ∀ (f : FSForest) (parent : FsPath) (d : Nat),
    walkForest openCfg f parent d = allForest f parent d
  | .nil, _, _ => rfl
  | .cons c rest, parent, d => by
    simp [walkForest, allForest, allowed_openCfg, walkNode_openCfg c,
      walkForest_openCfg rest parent d]
end

theorem allowed_heavy_name (cfg : WalkConfig) (name : Seg) (ft : FType) (rel : FsPath) (d : Nat)
    (hf : cfg.filterHeavy = true) (hd : ft = FType.dir)
    (hal : allowed cfg name ft rel d = true) : name ∉ heavyDirs := by
  intro hmem
  have hhp : heavyPass cfg name ft = true := by
    simp only [allowed, Bool.and_eq_true] at hal
    exact hal.1.2
  simp [heavyPass, hf, hd, hmem] at hhp

theorem dropLast_append_one (l : List Seg) (a : Seg) : (l ++ [a]).dropLast = l := by
  simp

mutual
theorem walkNode_heavyClean (cfg : WalkConfig) (hf : cfg.filterHeavy = true) :
    ∀ (n : FSNode) (path : FsPath) (d : Nat),
      (∀ s ∈ path.dropLast, s ∉ heavyDirs) →
      (n.typeOf = FType.dir → ∀ s ∈ path, s ∉ heavyDirs) →
      ∀ e ∈ walkNode cfg n path d,
        (∀ s ∈ e.path.dropLast, s ∉ heavyDirs) ∧
          (e.ftype = FType.dir → ∀ s ∈ e.path, s ∉ heavyDirs)
  | .node nm ft cs => by
    intro path d h1 h2 e he
    simp only [walkNode] at he
    rcases List.mem_cons.mp he with rfl | h
    · exact ⟨h1, fun hd => h2 (by simpa [FSNode.typeOf] using hd)⟩
    · by_cases hdir : ft = FType.dir
      · rw [if_pos hdir] at h
        exact walkForest_heavyClean cfg hf cs path d
          (h2 (by simp [FSNode.typeOf, hdir])) e h
      · rw [if_neg hdir] at h
        exact absurd h (List.not_mem_nil e)
theorem walkForest_heavyClean (cfg : WalkConfig) (hf : cfg.filterHeavy = true) :
    ∀ (f : FSForest) (parent : FsPath) (d : Nat),
      (∀ s ∈ parent, s ∉ heavyDirs) →
      ∀ e ∈ walkForest cfg f parent d,
        (∀ s ∈ e.path.dropLast, s ∉ heavyDirs) ∧
          (e.ftype = FType.dir → ∀ s ∈ e.path, s ∉ heavyDirs)
  | .nil => by
    intro parent d hp e he
    exact absurd he (List.not_mem_nil e)
  | .cons c rest => by
    intro parent d hp e he
    simp only [walkForest] at he
    rcases List.mem_append.mp he with h | h
    · by_cases hal : allowed cfg c.nameOf c.typeOf (parent ++ [c.nameOf]) (d + 1) = true
      · rw [if_pos hal] at h
        refine walkNode_heavyClean cfg hf c (parent ++ [c.nameOf]) (d + 1) ?ha ?hb e h
        · intro s hs
          rw [dropLast_append_one] at hs
          exact hp s hs
        · intro hdir s hs
          rcases List.mem_append.mp hs with hsp | hsn
          · exact hp s hsp
          · have : s = c.nameOf := List.mem_singleton.mp hsn
            subst this
            exact allowed_heavy_name cfg c.nameOf c.typeOf (parent ++ [c.nameOf]) (d + 1)
              hf hdir hal
      · rw [if_neg hal] at h
        exact absurd h (List.not_mem_nil e)
    · exact walkForest_heavyClean cfg hf rest parent d hp e h
end

theorem foldl_tallyStep (es : List Entry) : ∀ (fc dc : Nat) (buf : List FsPath),
    es.foldl tallyStep (fc, dc, buf) =
      (fc + countFile es, dc + countDir es, buf ++ symPaths es) := by
  induction es with
  | nil => intro fc dc buf; simp [countFile, countDir, symPaths]
  | cons e rest ih =>
    intro fc dc buf
    rcases e with ⟨p, ft, dep⟩
    cases ft <;>
      simp [tallyStep, countFile, countDir, symPaths, List.filter_cons, ih] <;>
      omega

theorem flatten_eraseIdx_of_nil : ∀ (ts : List (List REv)) (i : Nat),
    ts.get? i = some [] → (ts.eraseIdx i).flatten = ts.flatten
  | [], i => by intro h; simp at h
  | t :: tl, 0 => by
    intro h
    have ht : t = [] := by simpa using h
    subst ht
    simp
  | t :: tl, i + 1 => by
    intro h
    have hh : tl.get? i = some [] := by simpa using h
    have : (t :: tl).eraseIdx (i + 1) = t :: tl.eraseIdx i := rfl
    rw [this, List.flatten_cons, List.flatten_cons, flatten_eraseIdx_of_nil tl i hh]

theorem flatten_set_of_cons : ∀ (ts : List (List REv)) (i : Nat) (e : REv) (rest : List REv),
    ts.get? i = some (e :: rest) → ts.flatten.Perm (e :: (ts.set i rest).flatten)
  | [], i, e, rest => by intro h; simp at h
  | t :: tl, 0, e, rest => by
    intro h
    have ht : t = e :: rest := by simpa using h
    subst ht
    simp [List.flatten_cons]
  | t :: tl, i + 1, e, rest => by
    intro h
    have hh : tl.get? i = some (e :: rest) := by simpa using h
    have ih := flatten_set_of_cons tl i e rest hh
    have h1 : (t :: tl).flatten = t ++ tl.flatten := List.flatten_cons
    have h2 : ((t :: tl).set (i + 1) rest).flatten = t ++ (tl.set i rest).flatten := List.flatten_cons
    rw [h1, h2]
    exact (ih.append_left t).trans List.perm_middle

theorem shuffle_perm_flatten {ts : List (List REv)} {evs : List REv}
    (h : Shuffle ts evs) : evs.Perm ts.flatten := by
  induction h with
  | nil => simp
  | drop i hget _ ih => rw [← flatten_eraseIdx_of_nil _ i hget]; exact ih
  | step i e rest hget _ ih =>
    exact (ih.cons e).trans (flatten_set_of_cons _ i e rest hget).symm

theorem mem_eraseIdx_or_get : ∀ (ts : List (List REv)) (i : Nat) (t : List REv),
    t ∈ ts → t ∈ ts.eraseIdx i ∨ ts.get? i = some t
  | [], _, t => by intro h; simp at h
  | x :: tl, 0, t => by
    intro h
    rcases List.mem_cons.mp h with rfl | hh
    · right; rfl
    · left; simpa using hh
  | x :: tl, i + 1, t => by
    intro h
    have he : (x :: tl).eraseIdx (i + 1) = x :: tl.eraseIdx i := rfl
    rcases List.mem_cons.mp h with rfl | hh
    · left; rw [he]; exact List.mem_cons_self _ _
    · rcases mem_eraseIdx_or_get tl i t hh with h1 | h1
      · left; rw [he]; exact List.mem_cons_of_mem x h1
      · right; simpa using h1

theorem mem_set_or_get : ∀ (ts : List (List REv)) (i : Nat) (r t : List REv),
    t ∈ ts → t ∈ ts.set i r ∨ ts.get? i = some t
  | [], _, r, t => by intro h; simp at h
  | x :: tl, 0, r, t => by
    intro h
    rcases List.mem_cons.mp h with rfl | hh
    · right; rfl
    · left
      have hs : (x :: tl).set 0 r = r :: tl := rfl
      rw [hs]
      exact List.mem_cons_of_mem r hh
  | x :: tl, i + 1, r, t => by
    intro h
    have hs : (x :: tl).set (i + 1) r = x :: tl.set i r := rfl
    rcases List.mem_cons.mp h with rfl | hh
    · left; rw [hs]; exact List.mem_cons_self _ _
    · rcases mem_set_or_get tl i r t hh with h1 | h1
      · left; rw [hs]; exact List.mem_cons_of_mem x h1
      · right; simpa using h1

theorem get_set_self : ∀ (ts : List (List REv)) (i : Nat) (r : List REv),
    i < ts.length → (ts.set i r).get? i = some r
  | [], i, r => by intro h; simp at h
  | x :: tl, 0, r => by intro h; rfl
  | x :: tl, i + 1, r => by
    intro h
    exact get_set_self tl i r (Nat.lt_of_succ_lt_succ h)

theorem shuffle_sublist {ts : List (List REv)} {evs : List REv}
    (h : Shuffle ts evs) : ∀ t ∈ ts, t.Sublist evs := by
  induction h with
  | nil => intro t ht; simp at ht
  | drop i hget _ ih =>
    intro t ht
    rcases mem_eraseIdx_or_get _ i t ht with h1 | h1
    · exact ih t h1
    · have ht2 : t = [] := by rw [hget] at h1; exact (Option.some.inj h1).symm
      subst ht2
      exact List.nil_sublist _
  | step i e rest hget _ ih =>
    intro t ht
    rcases mem_set_or_get _ i rest t ht with h1 | h1
    · exact (ih t h1).cons e
    · have ht2 : t = e :: rest := by rw [hget] at h1; exact (Option.some.inj h1).symm
      subst ht2
      rcases List.get?_eq_some.mp hget with ⟨hlt, _⟩
      have hrest : rest ∈ _ := List.get?_mem (get_set_self _ i rest hlt)
      exact (ih rest hrest).cons₂ e

theorem candTraces_no_blank_pos (isM : FsPath → Bool) :
    ∀ (l : List FsPath) (n : Nat), n ≠ 0 → ∀ t ∈ candTraces isM l n, REv.blank ∉ t := by
  intro l
  induction l with
  | nil => intro n _ t ht; simp [candTraces] at ht
  | cons p ps ih =>
    intro n hn t ht
    by_cases hm : isM p = true
    · rw [candTraces, if_pos hm, if_neg hn, List.nil_append] at ht
      rcases List.mem_cons.mp ht with rfl | hh
      · simp
      · exact ih (n + 1) (Nat.succ_ne_zero n) t hh
    · rw [candTraces, if_neg hm] at ht
      exact ih n hn t ht

theorem candTraces_first_match (isM : FsPath → Bool) :
    ∀ l : List FsPath, (∃ p ∈ l, isM p = true) →
      ∃ p rest, p ∈ l ∧ isM p = true ∧
        candTraces isM l 0 = [REv.blank, REv.announce p] :: rest ∧
        ∀ t ∈ rest, REv.blank ∉ t := by
  intro l
  induction l with
  | nil => intro h; simp at h
  | cons q qs ih =>
    intro h
    by_cases hm : isM q = true
    · refine ⟨q, candTraces isM qs 1, List.mem_cons_self q qs, hm, ?_, ?_⟩
      · rw [candTraces, if_pos hm, if_pos rfl]
        rfl
      · exact candTraces_no_blank_pos isM qs 1 (Nat.succ_ne_zero 0)
    · have hqs : ∃ p ∈ qs, isM p = true := by
        rcases h with ⟨p, hp, hp2⟩
        rcases List.mem_cons.mp hp with rfl | hp3
        · exact absurd hp2 hm
        · exact ⟨p, hp3, hp2⟩
      rcases ih hqs with ⟨p, rest, hp1, hp2, hp3, hp4⟩
      refine ⟨p, rest, List.mem_cons_of_mem q hp1, hp2, ?_, hp4⟩
      rw [candTraces, if_neg hm]
      exact hp3

/-- All-default command line: only the target is given. -/
def optsDefault : Opts := { target := [strOf "real"] }

/-- Fixture for the hidden-file claim: a symlink with a hidden name
directly under the root. -/
def treeHidden : FSNode :=
  .node (strOf ".") FType.dir (forestOf [.node (strOf ".l") FType.symlink (forestOf [])])

/-- C1: the claim says that by default (hidden flag untouched) dot-named
entries are traversed, so a hidden symlink reaches the Entry Buffer.  The
code does the opposite: `main` passes `opts.hidden` (default `true`)
straight to `WalkBuilder::hidden`, whose `true` means SKIP hidden entries;
so with all-default options the hidden symlink `.l` never enters the entry
buffer, while passing `--hidden` (which sets the field to `false`) does
include it.  This theorem evaluates the pipeline at that failing input,
exhibiting the inversion the code's own help text contradicts. -/
theorem hidden_default_skips_hidden_symlink :
    (tallies (walk (mkWalkConfig optsDefault) treeHidden)).2.2 = [] ∧
    (tallies (walk (mkWalkConfig { optsDefault with hidden := false }) treeHidden)).2.2 =
      [[strOf ".l"]] := by decide

/-- Options passing a single negated ignore glob `--ignore '!keep'`. -/
def optsNeg : Opts := { target := [strOf "real"], ignores := [strOf "!keep"] }

/-- Fixture for the ignore-glob claim: a symlink named `keep` under root. -/
def treeKeep : FSNode :=
  .node (strOf ".") FType.dir (forestOf [.node (strOf "keep") FType.symlink (forestOf [])])

/-- C2 counterexample: the claim says a path matching the negated glob
`!keep` is force-included in the traversal.  At this concrete input the
code turns `!keep` into the override ignore pattern `!keep` (a leading
`!` means IGNORE in the override matcher), so the entry `keep` is excluded
from the walk and the entry buffer stays empty. -/
theorem negated_glob_not_force_included :
    (tallies (walk (mkWalkConfig optsNeg) treeKeep)).2.2 = [] ∧
    Entry.mk [strOf "keep"] FType.symlink 1 ∉ walk (mkWalkConfig optsNeg) treeKeep := by
  decide

/-- C2 (amended): every user-supplied ignore glob is compiled to an
override IGNORE pattern whether or not it carries a leading `!`: the glob
`!g` is handed over verbatim and `g` gets `!` prepended, so both produce
the identical walker configuration, and an entry whose base name matches
`g` is excluded from the traversal under either spelling — a leading `!`
has no force-include effect. -/
theorem allowed_single_ignore (cfg : WalkConfig) (g : Seg)
    (hc : cfg.ovGlobs = [⟨g, false⟩]) (ft : FType) (rel : FsPath) (d : Nat) :
    allowed cfg g ft rel d = false := by
  simp [allowed, hc, ovDecision, lastMatching, ovMatchOne]

theorem ignore_glob_negation_ineffective (g : Seg) (hg : startsWithBang g = false) :
    (∀ o : Opts, mkWalkConfig { o with ignores := ['!' :: g] } =
      mkWalkConfig { o with ignores := [g] }) ∧
    (∀ (o : Opts) (ft : FType) (rel : FsPath) (d : Nat),
      allowed (mkWalkConfig { o with ignores := [g] }) g ft rel d = false) := by
  have hmk : mkPat g = '!' :: g := by simp [mkPat, hg]
  have hmk2 : mkPat ('!' :: g) = '!' :: g := rfl
  have hov : ovAdd ('!' :: g) = ⟨g, false⟩ := rfl
  constructor
  · intro o
    have e1 : mkWalkConfig { o with ignores := ['!' :: g] } =
        ⟨o.hidden, o.maxDepth, !o.includeHeavy, [ovAdd (mkPat ('!' :: g))]⟩ := rfl
    have e2 : mkWalkConfig { o with ignores := [g] } =
        ⟨o.hidden, o.maxDepth, !o.includeHeavy, [ovAdd (mkPat g)]⟩ := rfl
    rw [e1, e2, hmk, hmk2]
  · intro o ft rel d
    have hcfg : (mkWalkConfig { o with ignores := [g] }).ovGlobs = [⟨g, false⟩] := by
      have e2 : (mkWalkConfig { o with ignores := [g] }).ovGlobs =
          [ovAdd (mkPat g)] := rfl
      rw [e2, hmk, hov]
    exact allowed_single_ignore _ g hcfg ft rel d

/-- C2 witness: the amended statement applied at the concrete glob `keep`:
the negated and plain spellings build the same configuration. -/
theorem ignore_glob_negation_ineffective_w :
    mkWalkConfig { optsDefault with ignores := ['!' :: strOf "keep"] } =
      mkWalkConfig { optsDefault with ignores := [strOf "keep"] } :=
  (ignore_glob_negation_ineffective (strOf "keep") (by decide)).1 optsDefault

/-- C3 (amended): with max depth 0, only the root entry itself is visited;
every entry below the root — including each entry directly under it — is
pruned, so no symlink other than (possibly) the root itself is ever
enumerated into the entry buffer. -/
theorem depth_zero_yields_only_root (cfg : WalkConfig) (t : FSNode)
    (h : cfg.maxD = some 0) :
    walk cfg t = [⟨[], t.typeOf, 0⟩] ∧
    ∀ e ∈ walk cfg t, e.ftype = FType.symlink → e.depth = 0 ∧ e.path = [] := by
  have hw : walk cfg t = [⟨[], t.typeOf, 0⟩] := by
    rcases t with ⟨nm, ft, cs⟩
    rw [walk, walkNode]
    by_cases hd : ft = FType.dir
    · rw [if_pos hd, walkForest_depth0 cfg h cs []]
      simp [FSNode.typeOf]
    · rw [if_neg hd]
      simp [FSNode.typeOf]
  refine ⟨hw, ?_⟩
  intro e he _
  rw [hw] at he
  have := List.mem_singleton.mp he
  subst this
  exact ⟨rfl, rfl⟩

/-- Fixture for the depth claim: a file directly under the root and a
symlink inside a subdirectory. -/
def treeDepth1 : FSNode :=
  .node (strOf ".") FType.dir (forestOf
    [.node (strOf "a") FType.file (forestOf []),
     .node (strOf "sub") FType.dir (forestOf
       [.node (strOf "link") FType.symlink (forestOf [])])])

/-- Walker configuration for `--max-depth 0` over default options. -/
def cfgD0 : WalkConfig := mkWalkConfig { optsDefault with maxDepth := some 0 }

/-- C3 counterexample: the claim says that with max depth 0 exactly the
entries directly under the root are visited; at this input the direct
child `a` is NOT enumerated — the walk yields only the root entry
(the walker counts the root as depth 0 and its direct children as
depth 1, already beyond the bound). -/
theorem depth_zero_counterexample :
    Entry.mk [strOf "a"] FType.file 1 ∉ walk cfgD0 treeDepth1 ∧
    walk cfgD0 treeDepth1 = [⟨[], FType.dir, 0⟩] := by decide

/-- C3 witness: the amended statement applied at the depth fixture. -/
theorem depth_zero_yields_only_root_w :
    walk cfgD0 treeDepth1 = [⟨[], FType.dir, 0⟩] :=
  (depth_zero_yields_only_root cfgD0 treeDepth1 rfl).1

/-- Canonical target path of the resolver fixtures. -/
def pTarget : FsPath := [strOf "real"]

/-- Distinct canonical path that is a hard link of the target (same
device+inode, different path). -/
def pHard : FsPath := [strOf "hard"]

/-- Candidate symlink path. -/
def pLink : FsPath := [strOf "link"]

/-- Resolver fixture with a hard link: `real` and `hard` are distinct
canonical paths sharing identity (1, 5); the symlink `link` resolves to
`hard`. -/
def rfsHard : ResolveFS :=
  { canonical := fun p =>
      if p = pTarget then some pTarget
      else if p = pHard then some pHard
      else if p = pLink then some pHard
      else none
    inoOf := fun p =>
      if p = pTarget then some (1, 5)
      else if p = pHard then some (1, 5)
      else none }

/-- C4 counterexample: the claim asserts the fast identity check affirms
exactly when the canonicalized candidate equals the target, in particular
for candidates resolving to a distinct hard link of the target.  At this
input the candidate `link` canonicalizes to `hard` ≠ `real`, yet the fast
device+inode check affirms (hard links share identity), the
canonicalization fallback rejects, and the pipeline even reports the
candidate as a match — the two checks disagree precisely in the claimed
hard-link case. -/
theorem fast_slow_disagree_on_hard_link :
    metaId rfsHard pTarget = some (1, 5) ∧
    fastCheck rfsHard (1, 5) pLink = true ∧
    slowCheck rfsHard pTarget pLink = false ∧
    isMatch rfsHard pTarget (metaId rfsHard pTarget) pLink = true := by decide

/-- C4 (amended): the fast identity check affirms exactly when the
candidate resolves to a path carrying the target's identity.  Under the
additional premise that no canonical path other than the target carries
that identity (no hard link of the target exists), the fast check agrees
with the canonicalization fallback on every candidate, and the combined
match decision equals the fallback alone. -/
theorem fast_path_agrees_without_hard_links (rfs : ResolveFS) (tgt : FsPath)
    (tm : Nat × Nat) (p : FsPath)
    (hA : rfs.inoOf tgt = some tm)
    (hB : ∀ q, rfs.inoOf q = some tm → q = tgt) :
    (fastCheck rfs tm p = true ↔ slowCheck rfs tgt p = true) ∧
    isMatch rfs tgt (some tm) p = slowCheck rfs tgt p := by
  have hiff : fastCheck rfs tm p = true ↔ slowCheck rfs tgt p = true := by
    constructor
    · intro hf
      have hm : metaId rfs p = some tm := of_decide_eq_true hf
      rcases Option.bind_eq_some.mp hm with ⟨q, hq1, hq2⟩
      have : q = tgt := hB q hq2
      subst this
      exact decide_eq_true hq1
    · intro hs
      have hc : rfs.canonical p = some tgt := of_decide_eq_true hs
      have : metaId rfs p = some tm := by
        rw [metaId, hc, Option.some_bind, hA]
      exact decide_eq_true this
  refine ⟨hiff, ?_⟩
  rw [isMatch]
  cases hf : fastCheck rfs tm p
  · simp
  · rw [if_pos rfl]
    exact (hiff.mp hf).symm

/-- Resolver fixture without hard links: only the target carries identity
(1, 5); the symlink `link` resolves to the target and `hard` is absent
(dangling). -/
def rfsPlain : ResolveFS :=
  { canonical := fun p =>
      if p = pTarget then some pTarget
      else if p = pLink then some pTarget
      else none
    inoOf := fun p => if p = pTarget then some (1, 5) else none }

/-- C4 witness: the amended agreement applied at the hard-link-free
fixture and the concrete candidate `link`. -/
theorem fast_path_agrees_without_hard_links_w :
    (fastCheck rfsPlain (1, 5) pLink = true ↔ slowCheck rfsPlain pTarget pLink = true) ∧
    isMatch rfsPlain pTarget (some (1, 5)) pLink = slowCheck rfsPlain pTarget pLink :=
  fast_path_agrees_without_hard_links rfsPlain pTarget (1, 5) pLink (by decide)
    (fun q hq => by
      by_cases h : q = pTarget
      · exact h
      · simp [rfsPlain, h] at hq)

/-- C5: the run aborts with the descriptive resolution error exactly when
the target cannot be canonicalized — and then the outcome is independent
of the tree, i.e. no traversal work influences it — while any resolvable
target yields a successful result, even with zero matches. -/
theorem fatal_only_target_resolution (rfs : ResolveFS) (tree : FSNode) (o : Opts) :
    (rfs.canonical o.target = none →
      runMain rfs tree o = .error msgFailResolve ∧
      ∀ tree2 : FSNode, runMain rfs tree2 o = runMain rfs tree o) ∧
    (∀ tgt, rfs.canonical o.target = some tgt → ∃ r, runMain rfs tree o = .ok r) := by
  constructor
  · intro h
    constructor
    · simp [runMain, h]
    · intro tree2
      simp [runMain, h]
  · intro tgt h
    cases he : runMain rfs tree o with
    | error e => simp [runMain, h] at he
    | ok r => exact ⟨r, rfl⟩

/-- Resolver in which nothing resolves, so even the target fails. -/
def rfsNone : ResolveFS := { canonical := fun _ => none, inoOf := fun _ => none }

/-- C5 witness: at a resolver where the target cannot be canonicalized the
run reports the resolution error. -/
theorem fatal_only_target_resolution_w :
    runMain rfsNone treeHidden optsDefault = .error msgFailResolve :=
  ((fatal_only_target_resolution rfsNone treeHidden optsDefault).1 rfl).1

/-- C6: a candidate whose canonicalization fails — dangling link,
permission error, metadata failure — is decided as a non-match (both the
fast check and the fallback observe the failure as `false`), and filtering
the whole candidate buffer simply drops it while every other candidate is
still processed; no abort is possible since the decision is total. -/
theorem resolution_failure_is_nonmatch (rfs : ResolveFS) (tgt : FsPath)
    (tm : Option (Nat × Nat)) (p : FsPath) (h : rfs.canonical p = none) :
    isMatch rfs tgt tm p = false ∧
    ∀ pre post : List FsPath,
      (pre ++ p :: post).filter (isMatch rfs tgt tm) =
        pre.filter (isMatch rfs tgt tm) ++ post.filter (isMatch rfs tgt tm) := by
  have hm : isMatch rfs tgt tm p = false := by
    cases tm with
    | none => simp [isMatch, slowCheck, h]
    | some t => simp [isMatch, fastCheck, slowCheck, metaId, h]
  refine ⟨hm, ?_⟩
  intro pre post
  simp [List.filter_append, List.filter_cons, hm]

/-- C6 witness: in the hard-link-free fixture the path `hard` is dangling;
it is decided as a non-match. -/
theorem resolution_failure_is_nonmatch_w :
    isMatch rfsPlain pTarget (some (1, 5)) pHard = false :=
  (resolution_failure_is_nonmatch rfsPlain pTarget (some (1, 5)) pHard (by decide)).1

/-- C7: heavy-directory policy.  (a) With the heavy filter installed (the
default, heavy-inclusion flag unset) no walked entry lies under a
heavy-named directory — every ancestor segment of a yielded entry avoids
the deny-list, and a yielded directory entry itself is never heavy-named —
so a heavy directory's subtree is never enumerated.  (b) With the filter
off and no other policy active, the walk enumerates the entire tree, so
heavy directories are traversed.  (c) The heavy rule never rejects a
non-directory entry, whatever its name. -/
theorem heavy_directory_policy :
    (∀ (cfg : WalkConfig) (t : FSNode), cfg.filterHeavy = true →
      ∀ e ∈ walk cfg t,
        (∀ s ∈ e.path.dropLast, s ∉ heavyDirs) ∧
          (e.ftype = FType.dir → ∀ s ∈ e.path, s ∉ heavyDirs)) ∧
    (∀ t : FSNode, walk openCfg t = allEntries t) ∧
    (∀ (cfg : WalkConfig) (name : Seg) (ft : FType), ft ≠ FType.dir →
      heavyPass cfg name ft = true) := by
  refine ⟨?_, ?_, ?_⟩
  · intro cfg t hf e he
    exact walkNode_heavyClean cfg hf t [] 0 (by simp) (by simp) e he
  · intro t
    exact walkNode_openCfg t [] 0
  · intro cfg name ft hft
    simp [heavyPass, hft]

/-- Fixture for the heavy-directory claim: a `node_modules` directory
containing a symlink, next to an ordinary `src` directory. -/
def treeHeavy : FSNode :=
  .node (strOf ".") FType.dir (forestOf
    [.node (strOf "node_modules") FType.dir (forestOf
       [.node (strOf "x") FType.symlink (forestOf [])]),
     .node (strOf "src") FType.dir (forestOf [])])

/-- Walker configuration of an all-default command line (heavy filter on,
hidden skip on, no depth bound, no globs). -/
def cfgHeavy : WalkConfig := mkWalkConfig optsDefault

/-- C7 witness: the pruning invariant applied to the concrete entry `src`
walked under the default configuration over the heavy fixture. -/
theorem heavy_directory_policy_w :
    (∀ s ∈ ([strOf "src"] : FsPath).dropLast, s ∉ heavyDirs) ∧
      (FType.dir = FType.dir → ∀ s ∈ ([strOf "src"] : FsPath), s ∉ heavyDirs) :=
  heavy_directory_policy.1 cfgHeavy treeHeavy rfl ⟨[strOf "src"], FType.dir, 1⟩ (by decide)

/-- C8: the frozen match set is sorted before reporting, so the final
reported list is the same for every discovery order the concurrent
resolution workers may produce (any two permutations of the filtered
candidate buffer sort to the same list), it is sorted, and it is exactly a
reordering of the matching candidates; moreover every successful run
reports a sorted match set. -/
theorem match_set_order_deterministic (rfs : ResolveFS) (tgt : FsPath)
    (tm : Option (Nat × Nat)) (buf d1 d2 : List FsPath)
    (h1 : d1.Perm (buf.filter (isMatch rfs tgt tm)))
    (h2 : d2.Perm (buf.filter (isMatch rfs tgt tm))) :
    sortPaths d1 = sortPaths d2 ∧ List.Sorted pLe (sortPaths d1) ∧
      (sortPaths d1).Perm (buf.filter (isMatch rfs tgt tm)) ∧
      ∀ (tree : FSNode) (o : Opts) (r : RunResult),
        runMain rfs tree o = .ok r → List.Sorted pLe r.matchSet := by
  have hs1 : List.Sorted pLe (sortPaths d1) := List.sorted_insertionSort pLe d1
  have hs2 : List.Sorted pLe (sortPaths d2) := List.sorted_insertionSort pLe d2
  have hp1 : (sortPaths d1).Perm d1 := List.perm_insertionSort pLe d1
  have hp2 : (sortPaths d2).Perm d2 := List.perm_insertionSort pLe d2
  have hp : (sortPaths d1).Perm (sortPaths d2) :=
    (hp1.trans h1).trans ((hp2.trans h2).symm)
  refine ⟨List.eq_of_perm_of_sorted hp hs1 hs2, hs1, hp1.trans h1, ?_⟩
  intro tree o r hr
  rw [runMain] at hr
  cases hc : rfs.canonical o.target with
  | none => rw [hc] at hr; exact Except.noConfusion hr
  | some tgt2 =>
    rw [hc] at hr
    have := Except.ok.inj hr
    rw [← this]
    exact List.sorted_insertionSort pLe _

/-- C8 witness: two opposite discovery orders of the two matching
candidates sort identically. -/
theorem match_set_order_deterministic_w :
    sortPaths [pLink, pTarget] = sortPaths [pTarget, pLink] :=
  (match_set_order_deterministic rfsPlain pTarget (some (1, 5)) [pLink, pTarget]
    [pLink, pTarget] [pTarget, pLink] (by decide) (by decide)).1

/-- C9 counterexample: the claim asserts the one-time begin-results blank
line is printed strictly before the first match announcement.  The atomic
`fetch_add` serializes only the counter reads; the prints that follow are
unsynchronized across workers, so with two matching candidates on two
workers the second worker may print its announcement before the first
worker gets to print the blank line.  Below is exactly such an
interleaving of the real per-candidate print traces (with `link`
triggering the blank): the very first print of the run is the
announcement of `real`, and the blank line only appears after it. -/
theorem streaming_blank_race_counterexample :
    candTraces (isMatch rfsPlain pTarget (some (1, 5))) [pLink, pTarget] 0 =
      [[REv.blank, REv.announce pLink], [REv.announce pTarget]] ∧
    Shuffle [[REv.blank, REv.announce pLink], [REv.announce pTarget]]
      [REv.announce pTarget, REv.blank, REv.announce pLink] ∧
    [REv.announce pTarget, REv.blank, REv.announce pLink].take 1 =
      [REv.announce pTarget] ∧
    REv.blank ∈ [REv.announce pTarget, REv.blank, REv.announce pLink] := by
  refine ⟨by decide, ?_, by decide, by decide⟩
  exact Shuffle.step 1 (REv.announce pTarget) [] rfl
    (Shuffle.step 0 REv.blank [REv.announce pLink] rfl
      (Shuffle.step 0 (REv.announce pLink) [] rfl
        (Shuffle.drop 0 rfl (Shuffle.drop 0 rfl Shuffle.nil))))

/-- C9 (amended): with streaming enabled (no JSON, no stream-disable) and
at least one matching candidate, EVERY print interleaving the
unsynchronized workers can produce contains the begin-results blank line
exactly once — the atomic `fetch_add` hands the zero value to exactly one
match, so no subsequent match re-triggers it — and the blank line is
printed strictly before the announcement of the match that triggered it,
because that single worker issues its two prints in order.  It need not
precede the announcements of other, racing matches (see the
counterexample). -/
theorem streaming_blank_once_before_trigger (o : Opts) (isM : FsPath → Bool)
    (l : List FsPath) (evs : List REv)
    (hj : o.json = false) (hs : o.noStream = false)
    (hm : ∃ p ∈ l, isM p = true)
    (hsh : Shuffle (candTraces isM l 0) evs) :
    streamingAllowed o = true ∧
    evs.count REv.blank = 1 ∧
    ∃ p, p ∈ l ∧ isM p = true ∧
      [REv.blank, REv.announce p].Sublist evs := by
  rcases candTraces_first_match isM l hm with ⟨p, rest, hp1, hp2, hp3, hp4⟩
  refine ⟨by simp [streamingAllowed, hj, hs], ?_, p, hp1, hp2, ?_⟩
  · have hperm := shuffle_perm_flatten hsh
    rw [hperm.count_eq, hp3]
    have hnb : REv.blank ∉ rest.flatten := by
      intro hmem
      rcases List.mem_flatten.mp hmem with ⟨t, ht1, ht2⟩
      exact hp4 t ht1 ht2
    simp [List.flatten_cons, List.count_append, List.count_eq_zero.mpr hnb]
  · have hmem : [REv.blank, REv.announce p] ∈ candTraces isM l 0 := by
      rw [hp3]
      exact List.mem_cons_self _ _
    exact shuffle_sublist hsh _ hmem

/-- C9 witness: the amended invariant applied to a concrete race-free
interleaving of the same two candidate traces, with `link` the triggering
match. -/
theorem streaming_blank_once_before_trigger_w :
    streamingAllowed optsDefault = true ∧
    ([REv.blank, REv.announce pLink, REv.announce pTarget].count REv.blank = 1) ∧
    ∃ p, p ∈ [pLink, pTarget] ∧ isMatch rfsPlain pTarget (some (1, 5)) p = true ∧
      [REv.blank, REv.announce p].Sublist
        [REv.blank, REv.announce pLink, REv.announce pTarget] := by
  have hct : candTraces (isMatch rfsPlain pTarget (some (1, 5))) [pLink, pTarget] 0 =
      [[REv.blank, REv.announce pLink], [REv.announce pTarget]] := by decide
  refine streaming_blank_once_before_trigger optsDefault
    (isMatch rfsPlain pTarget (some (1, 5))) [pLink, pTarget]
    [REv.blank, REv.announce pLink, REv.announce pTarget] rfl rfl
    ⟨pLink, by decide, by decide⟩ ?_
  rw [hct]
  exact Shuffle.step 0 REv.blank [REv.announce pLink] rfl
    (Shuffle.step 0 (REv.announce pLink) [] rfl
      (Shuffle.drop 0 rfl
        (Shuffle.step 0 (REv.announce pTarget) [] rfl
          (Shuffle.drop 0 rfl Shuffle.nil))))

/-- C10: the traversal counters never count a symlink entry: the tallies
of any entry list are exactly (number of `file` entries, number of `dir`
entries, paths of `symlink` entries in order) — a symlink (which the
walker classifies from `symlink_metadata`, never as file or dir, whatever
it points at) contributes only to the entry buffer — and one tally step on
a symlink entry provably leaves both counters unchanged while appending
the path to the buffer.  The root entry is always walked, so a directory
root is included in the directory count. -/
theorem symlink_counters_separation :
    (∀ es : List Entry, tallies es = (countFile es, countDir es, symPaths es)) ∧
    (∀ (acc : Nat × Nat × List FsPath) (e : Entry), e.ftype = FType.symlink →
      tallyStep acc e = (acc.1, acc.2.1, acc.2.2 ++ [e.path])) ∧
    (∀ (cfg : WalkConfig) (t : FSNode), Entry.mk [] t.typeOf 0 ∈ walk cfg t) := by
  refine ⟨?_, ?_, ?_⟩
  · intro es
    have h := foldl_tallyStep es 0 0 []
    simpa [tallies] using h
  · intro acc e he
    simp [tallyStep, he]
  · intro cfg t
    rcases t with ⟨nm, ft, cs⟩
    rw [walk, walkNode]
    exact List.mem_cons_self _ _

/-- C10 witness: a tally step on a concrete symlink entry leaves both
counters untouched and appends its path to the entry buffer. -/
theorem symlink_counters_separation_w :
    tallyStep (1, 2, [pTarget]) ⟨pLink, FType.symlink, 3⟩ = (1, 2, [pTarget, pLink]) :=
  symlink_counters_separation.2.1 (1, 2, [pTarget]) ⟨pLink, FType.symlink, 3⟩ rfl
